import Mathlib

/-!
Verification of the language-percentage redistribution engine of repo-vista.

Source files embedded here:
  * `src/unnamed/part_000` — `normalizePercentages`, `addLanguageWithRedistribution`,
    `removeLanguageWithRedistribution`, `updateLanguagePercentage`;
  * `src/src/utils/github-api.js` — `formatLanguageBreakdown`.

Modelling decisions (JavaScript → Lean):
  * JS numbers are modelled as exact rationals (`ℚ`).  All percentages the app
    manipulates are produced by `parseInt` / `Math.round`, so they are
    integer-valued; the spec's data model declares `percentage : integer`.
  * `Math.round x` is `⌊x + 1/2⌋` (JS rounds halves toward +∞), see `jsRound`.
  * `parseInt` applied to a finite number truncates toward zero, see `parseIntRat`.
  * Division by zero: Lean's `ℚ` division returns 0 where JS returns
    NaN/Infinity.  Every theorem below whose conclusion could be affected by a
    zero denominator carries a hypothesis excluding that case, and the
    divergence is recorded with the corresponding claim; the counterexamples
    below avoid inputs where the two semantics disagree on the stated property.
  * JS arrays of entry objects are modelled in two ways: a value-level model
    (`List LangEntry`, used for the functional claims — it computes exactly the
    field values the source returns) and a heap model (`normalizeStore`) that
    tracks object identity, used to exhibit the shallow-copy mutation of
    `normalizePercentages` (`const result = [...languages]` copies the array
    but shares the entry objects, so `result[i].percentage += d` writes through
    the caller's snapshot).
-/

/-- A language entry as used by `part_000`: `{ name, percentage, colorToken }`. -/
structure LangEntry where
  name : String
  percentage : ℚ
  colorToken : String
deriving DecidableEq, Repr

/-- Default entry used to totalize JS array indexing (`languages[i]`); every
guarded access in the source is in range, so the default is never observable. -/
def defEntry : LangEntry := ⟨"", 0, ""⟩

/-- An entry as produced by `formatLanguageBreakdown` in `github-api.js`:
`{ name, percentage, color }`. -/
structure FmtEntry where
  name : String
  percentage : ℚ
  color : String
deriving DecidableEq, Repr

/-- JS `Math.round`: round to nearest, halves toward +∞. -/
def jsRound (q : ℚ) : ℤ := ⌊q + 1 / 2⌋

/-- JS `parseInt` on a finite number: truncation toward zero. -/
def parseIntRat (q : ℚ) : ℤ := if q < 0 then -⌊-q⌋ else ⌊q⌋

/-- The validation pipeline of `updateLanguagePercentage`:
`Math.min(Math.max(parseInt(newPercentage) || 0, 1), 99)`. -/
def clampPct (v : ℚ) : ℤ := min (max (parseIntRat v) 1) 99

/-- JS `array.reduce((sum, x) => sum + f x, 0)`. -/
def sumBy {α : Type} (f : α → ℚ) (l : List α) : ℚ :=
  l.foldl (fun s a => s + f a) 0

/-- Sum of the `percentage` fields of a language list. -/
def sumPct (L : List LangEntry) : ℚ := sumBy (fun e => e.percentage) L

/-- In-place field update at one array index (`arr[i] = g (arr[i])`); positions
other than `i` are untouched. -/
def setAt {α : Type} : List α → ℕ → (α → α) → List α
  | [], _, _ => []
  | a :: l, 0, g => g a :: l
  | a :: l, n + 1, g => a :: setAt l n g

/-- The largest-entry search of `normalizePercentages` (and of
`formatLanguageBreakdown`'s correction step): map to `{index, value}` pairs and
reduce with "replace only if strictly greater", starting from the sentinel
`{index: -1, value: 0}`.  Returns the resulting index. -/
def largestIdxBy {α : Type} (f : α → ℚ) (l : List α) : ℤ :=
  ((l.enum.map (fun p => ((p.1 : ℤ), f p.2))).foldl
    (fun acc curr => if curr.2 > acc.2 then curr else acc) ((-1 : ℤ), (0 : ℚ))).1

/-- Percentage stored at position `j` (0 outside the list). -/
def pctAt (L : List LangEntry) (j : ℕ) : ℚ := ((L.get? j).getD defEntry).percentage

/-- `normalizePercentages` from `src/unnamed/part_000` (lines 11–31): if the
total is not 100, add `100 - total` to the entry found by `largestIdxBy`
(no adjustment when the sentinel index `-1` survives). -/
def normalizePercentages (languages : List LangEntry) : List LangEntry :=
  if languages.length = 0 then []
  else
    let total := sumPct languages
    if total = 100 then languages
    else
      let largestIndex := largestIdxBy (fun e => e.percentage) languages
      if 0 ≤ largestIndex then
        setAt languages largestIndex.toNat
          (fun e => { e with percentage := e.percentage + (100 - total) })
      else languages

/-- `addLanguageWithRedistribution` from `src/unnamed/part_000` (lines 41–63). -/
def addLanguageWithRedistribution (languages : List LangEntry)
    (newLanguage : LangEntry) (newPercentage : ℚ := 5) : List LangEntry :=
  if languages.length = 0 then [{ newLanguage with percentage := 100 }]
  else
    let remaining := 100 - newPercentage
    let updated := languages.map (fun lang =>
      { lang with percentage := ((jsRound (lang.percentage / 100 * remaining) : ℤ) : ℚ) })
    normalizePercentages (updated ++ [{ newLanguage with percentage := newPercentage }])

/-- `removeLanguageWithRedistribution` from `src/unnamed/part_000`
(lines 72–89).  The division `lang.percentage / total` is ℚ-division; the JS
source produces NaN when `total = 0` (flagged by the spec as undefined). -/
def removeLanguageWithRedistribution (languages : List LangEntry)
    (indexToRemove : ℤ) : List LangEntry :=
  if languages.length ≤ 1 ∨ indexToRemove < 0 ∨ (languages.length : ℤ) ≤ indexToRemove then
    languages
  else
    let removedPercentage := pctAt languages indexToRemove.toNat
    let remaining := languages.eraseIdx indexToRemove.toNat
    let total := sumPct remaining
    let updated := remaining.map (fun lang =>
      { lang with percentage :=
          ((jsRound (lang.percentage + lang.percentage / total * removedPercentage) : ℤ) : ℚ) })
    normalizePercentages updated

/-- The pre-normalization list built by `updateLanguagePercentage` (lines
113–128 of `src/unnamed/part_000`): entry `index` is set to the validated
value, every other entry becomes `Math.max(1, Math.round(p * factor))` with
`factor = (othersTotal - diff) / othersTotal`.  The JS factor is ±Infinity
when `othersTotal = 0` (and then non-target entries become NaN); Lean's
convention gives 0 there — theorems about that path carry an
`othersTotal ≠ 0` hypothesis (the factor is computed but unused on
single-entry lists, where the two semantics agree). -/
def updIntermediate (languages : List LangEntry) (index : ℕ)
    (newPercentage : ℚ) : List LangEntry :=
  let validated : ℚ := ((clampPct newPercentage : ℤ) : ℚ)
  let diff := validated - pctAt languages index
  let others := languages.eraseIdx index
  let othersTotal := sumPct others
  let factor := (othersTotal - diff) / othersTotal
  ((setAt languages index (fun e => { e with percentage := validated })).enum).map
    (fun p => if p.1 = index then p.2
      else { p.2 with percentage := max 1 ((jsRound (p.2.percentage * factor) : ℤ) : ℚ) })

/-- `updateLanguagePercentage` from `src/unnamed/part_000` (lines 99–132). -/
def updateLanguagePercentage (languages : List LangEntry) (index : ℤ)
    (newPercentage : ℚ) : List LangEntry :=
  if languages.length = 0 ∨ index < 0 ∨ (languages.length : ℤ) ≤ index then languages
  else
    let validated : ℚ := ((clampPct newPercentage : ℤ) : ℚ)
    let diff := validated - pctAt languages index.toNat
    if diff = 0 then languages
    else normalizePercentages (updIntermediate languages index.toNat newPercentage)

/-- Color lookup of `formatLanguageBreakdown`:
`languageColors[name] || 'lang-other'` (any falsy value — absent key or empty
string — falls back to the generic token). -/
def lookupColor (languageColors : List (String × String)) (name : String) : String :=
  match languageColors.lookup name with
  | some c => if c = "" then "lang-other" else c
  | none => "lang-other"

/-- Stable insertion used to model `Array.prototype.sort` (stable per ES2019)
with comparator `(a, b) => b.percentage - a.percentage`: a new element goes
after every element with a greater-or-equal percentage. -/
def insertDescByPct (x : String × ℚ) : List (String × ℚ) → List (String × ℚ)
  | [] => [x]
  | y :: ys => if x.2 ≤ y.2 then y :: insertDescByPct x ys else x :: y :: ys

/-- Stable descending sort by percentage (the unique stable order the JS
comparator produces). -/
def sortByPctDesc (l : List (String × ℚ)) : List (String × ℚ) :=
  l.foldl (fun acc x => insertDescByPct x acc) []

/-- Top-6 truncation and color assignment of `formatLanguageBreakdown`
(before the total correction). -/
def fmtColored (languageStats : List (String × ℚ))
    (languageColors : List (String × String)) : List FmtEntry :=
  ((sortByPctDesc languageStats).take 6).map
    (fun p => ⟨p.1, p.2, lookupColor languageColors p.1⟩)

/-- `formatLanguageBreakdown` from `src/src/utils/github-api.js` (lines
157–190).  The correction step's `reduce`/`indexOf` pair selects the first
entry with the strictly largest percentage (sentinel `{percentage: 0}`;
`indexOf` on the sentinel yields `-1` and skips the adjustment). -/
def formatLanguageBreakdown (languageStats : List (String × ℚ))
    (languageColors : List (String × String)) : List FmtEntry :=
  if languageStats.length = 0 then []
  else
    let formattedLanguages := fmtColored languageStats languageColors
    let total := sumBy (fun e => e.percentage) formattedLanguages
    if total ≠ 100 ∧ 0 < formattedLanguages.length then
      let largestIndex := largestIdxBy (fun e => e.percentage) formattedLanguages
      if 0 ≤ largestIndex then
        setAt formattedLanguages largestIndex.toNat
          (fun e => { e with percentage := e.percentage + (100 - total) })
      else formattedLanguages
    else formattedLanguages

/-- Heap-level model of `normalizePercentages`: `store` is the object heap,
`refs` the array of object references.  `const result = [...languages]` copies
the reference array only, so the write `result[largestIndex].percentage += d`
goes through the shared reference into the heap.  Returns the new array and
the updated heap. -/
def readPct (store : List LangEntry) (r : ℕ) : ℚ :=
  ((store.get? r).getD defEntry).percentage

/-- Heap-level `normalizePercentages` (see `readPct`). -/
def normalizeStore (refs : List ℕ) (store : List LangEntry) :
    List ℕ × List LangEntry :=
  if refs.length = 0 then ([], store)
  else
    let total := sumBy (fun r => readPct store r) refs
    if total = 100 then (refs, store)
    else
      let largestIndex := largestIdxBy (fun r => readPct store r) refs
      if 0 ≤ largestIndex then
        let target := (refs.get? largestIndex.toNat).getD 0
        (refs, setAt store target
          (fun e => { e with percentage := e.percentage + (100 - total) }))
      else (refs, store)

/-- Integer-valued percentages: the domain of the spec's data model
(`percentage : integer`). -/
def IntPct (L : List LangEntry) : Prop := ∀ e ∈ L, e.percentage.den = 1

instance : DecidablePred IntPct := fun L =>
  inferInstanceAs (Decidable (∀ e ∈ L, e.percentage.den = 1))

/-! ### Basic lemmas about the helper functions -/

theorem foldl_add_eq {α : Type} (f : α → ℚ) :
    ∀ (l : List α) (a : ℚ), l.foldl (fun s x => s + f x) a = a + (l.map f).sum
  | [], a => by simp
  | x :: l, a => by
    simp only [List.foldl_cons, List.map_cons, List.sum_cons, foldl_add_eq f l]
    ring

theorem sumBy_eq_sum_map {α : Type} (f : α → ℚ) (l : List α) :
    sumBy f l = (l.map f).sum := by
  simpa using foldl_add_eq f l 0

theorem sumPct_eq_sum_map (L : List LangEntry) :
    sumPct L = (L.map (fun e => e.percentage)).sum := sumBy_eq_sum_map _ L

theorem length_setAt {α : Type} : ∀ (l : List α) (n : ℕ) (g : α → α),
    (setAt l n g).length = l.length
  | [], _, _ => rfl
  | _ :: l, 0, g => rfl
  | _ :: l, n + 1, g => by simp [setAt, length_setAt l n g]

theorem setAt_get?_self {α : Type} : ∀ (l : List α) (n : ℕ) (g : α → α),
    (setAt l n g).get? n = (l.get? n).map g
  | [], _, _ => rfl
  | _ :: l, 0, g => rfl
  | _ :: l, n + 1, g => setAt_get?_self l n g

theorem setAt_get?_ne {α : Type} : ∀ (l : List α) (n : ℕ) (g : α → α) (m : ℕ),
    m ≠ n → (setAt l n g).get? m = l.get? m
  | [], _, _, _, _ => rfl
  | a :: l, 0, g, 0, h => absurd rfl h
  | a :: l, 0, g, m + 1, _ => rfl
  | a :: l, n + 1, g, 0, _ => rfl
  | a :: l, n + 1, g, m + 1, h => setAt_get?_ne l n g m (fun hc => h (by simp [hc]))

theorem sum_setAt {α : Type} (f : α → ℚ) :
    ∀ (l : List α) (n : ℕ) (g : α → α) (a : α), l.get? n = some a →
      sumBy f (setAt l n g) = sumBy f l + (f (g a) - f a)
  | [], n, g, a, h => by simp at h
  | x :: l, 0, g, a, h => by
    simp only [List.get?] at h
    cases h
    simp only [setAt, sumBy_eq_sum_map, List.map_cons, List.sum_cons]
    ring
  | x :: l, n + 1, g, a, h => by
    simp only [List.get?] at h
    have ih := sum_setAt f l n g a h
    simp only [setAt, sumBy_eq_sum_map, List.map_cons, List.sum_cons] at ih ⊢
    rw [ih]; ring

theorem mem_setAt {α : Type} : ∀ (l : List α) (n : ℕ) (g : α → α) (x : α),
    x ∈ setAt l n g → x ∈ l ∨ ∃ a ∈ l, x = g a
  | [], _, _, _, h => by simp [setAt] at h
  | a :: l, 0, g, x, h => by
    rcases List.mem_cons.1 h with h | h
    · exact Or.inr ⟨a, List.mem_cons_self a l, h⟩
    · exact Or.inl (List.mem_cons_of_mem a h)
  | a :: l, n + 1, g, x, h => by
    rcases List.mem_cons.1 h with h | h
    · exact Or.inl (h ▸ List.mem_cons_self a l)
    · rcases mem_setAt l n g x h with h | ⟨b, hb, hx⟩
      · exact Or.inl (List.mem_cons_of_mem a h)
      · exact Or.inr ⟨b, List.mem_cons_of_mem a hb, hx⟩

/-! ### The largest-entry search -/

/-- Total indexing into a list of rationals (0 outside range). -/
def qAt (q : List ℚ) (j : ℕ) : ℚ := (q.get? j).getD 0

theorem qAt_cons_zero (x : ℚ) (q : List ℚ) : qAt (x :: q) 0 = x := rfl

theorem qAt_cons_succ (x : ℚ) (q : List ℚ) (j : ℕ) : qAt (x :: q) (j + 1) = qAt q j := rfl

theorem qAt_mem : ∀ (q : List ℚ) (j : ℕ), j < q.length → qAt q j ∈ q
  | [], j, h => absurd h (by simp)
  | x :: q, 0, _ => List.mem_cons_self x q
  | x :: q, j + 1, h =>
    List.mem_cons_of_mem x (qAt_mem q j (Nat.lt_of_succ_lt_succ h))

theorem exists_qAt_of_mem : ∀ (q : List ℚ) (y : ℚ), y ∈ q →
    ∃ j, j < q.length ∧ qAt q j = y
  | [], y, h => absurd h (by simp)
  | x :: q, y, h => by
    rcases List.mem_cons.1 h with rfl | h
    · exact ⟨0, by simp, rfl⟩
    · rcases exists_qAt_of_mem q y h with ⟨j, hj, hy⟩
      exact ⟨j + 1, by simpa using Nat.succ_lt_succ hj, hy⟩

/-- Index/value pairs starting at index `n` (proof-side normal form of the
`map((lang, i) => ...)` step of the source). -/
def idxPairs (n : ℤ) : List ℚ → List (ℤ × ℚ)
  | [] => []
  | q :: qs => (n, q) :: idxPairs (n + 1) qs

/-- The reduction step of the largest-entry search, on index/value pairs. -/
def maxFold (acc : ℤ × ℚ) (l : List (ℤ × ℚ)) : ℤ × ℚ :=
  l.foldl (fun acc curr => if curr.2 > acc.2 then curr else acc) acc

theorem enumFrom_map_eq_idxPairs {α : Type} (f : α → ℚ) :
    ∀ (l : List α) (n : ℕ),
      (List.enumFrom n l).map (fun p => ((p.1 : ℤ), f p.2)) = idxPairs (n : ℤ) (l.map f)
  | [], n => rfl
  | x :: l, n => by
    simp only [List.enumFrom, List.map_cons, idxPairs, enumFrom_map_eq_idxPairs f l (n + 1)]
    norm_num

theorem largestIdxBy_eq_maxFold {α : Type} (f : α → ℚ) (l : List α) :
    largestIdxBy f l = (maxFold ((-1 : ℤ), (0 : ℚ)) (idxPairs 0 (l.map f))).1 := by
  unfold largestIdxBy maxFold
  rw [show l.enum = List.enumFrom 0 l from rfl, enumFrom_map_eq_idxPairs]
  norm_num

theorem maxFold_of_le : ∀ (q : List ℚ) (n : ℤ) (acc : ℤ × ℚ),
    (∀ x ∈ q, x ≤ acc.2) → maxFold acc (idxPairs n q) = acc
  | [], _, _, _ => rfl
  | x :: q, n, acc, h => by
    have hx : ¬ (x > acc.2) := not_lt.2 (h x (List.mem_cons_self x q))
    simp only [idxPairs, maxFold, List.foldl_cons]
    rw [if_neg hx]
    exact maxFold_of_le q (n + 1) acc (fun y hy => h y (List.mem_cons_of_mem x hy))

theorem maxFold_firstmax : ∀ (q : List ℚ) (k : ℕ) (n : ℤ) (acc : ℤ × ℚ),
    k < q.length →
    (∀ j, j < q.length → qAt q j ≤ qAt q k) →
    (∀ j, j < k → qAt q j < qAt q k) →
    acc.2 < qAt q k →
    maxFold acc (idxPairs n q) = (n + (k : ℤ), qAt q k)
  | [], k, _, _, hk, _, _, _ => absurd hk (by simp)
  | x :: q, 0, n, acc, _, hmax, _, hacc => by
    have hx : x > acc.2 := by simpa [qAt_cons_zero] using hacc
    simp only [idxPairs, maxFold, List.foldl_cons]
    rw [if_pos hx]
    have hrest : maxFold (n, x) (idxPairs (n + 1) q) = (n, x) := by
      apply maxFold_of_le
      intro y hy
      rcases exists_qAt_of_mem q y hy with ⟨j, hj, rfl⟩
      simpa [qAt_cons_succ, qAt_cons_zero] using hmax (j + 1) (by simpa using Nat.succ_lt_succ hj)
    simpa [maxFold, qAt_cons_zero] using hrest
  | x :: q, k + 1, n, acc, hk, hmax, hfirst, hacc => by
    have hx0 : x < qAt q k := by
      simpa [qAt_cons_zero, qAt_cons_succ] using hfirst 0 (Nat.succ_pos k)
    have hacc' : (if x > acc.2 then ((n : ℤ), x) else acc).2 < qAt q k := by
      by_cases h : x > acc.2
      · simpa [h] using hx0
      · simpa [h, qAt_cons_succ] using hacc
    have ih := maxFold_firstmax q k (n + 1) (if x > acc.2 then ((n : ℤ), x) else acc)
      (Nat.lt_of_succ_lt_succ hk)
      (fun j hj => by
        simpa [qAt_cons_succ] using hmax (j + 1) (by simpa using Nat.succ_lt_succ hj))
      (fun j hj => by
        simpa [qAt_cons_succ] using hfirst (j + 1) (Nat.succ_lt_succ hj))
      hacc'
    simp only [idxPairs, maxFold, List.foldl_cons]
    by_cases h : x > acc.2
    · rw [if_pos h]
      rw [if_pos h] at ih
      simp only [maxFold] at ih
      rw [ih, qAt_cons_succ]
      simp only [Prod.mk.injEq]
      exact ⟨by push_cast; ring, trivial⟩
    · rw [if_neg h]
      rw [if_neg h] at ih
      simp only [maxFold] at ih
      rw [ih, qAt_cons_succ]
      simp only [Prod.mk.injEq]
      exact ⟨by push_cast; ring, trivial⟩

theorem maxFold_cases : ∀ (q : List ℚ) (n : ℤ) (acc : ℤ × ℚ),
    maxFold acc (idxPairs n q) = acc ∨
      ∃ j, j < q.length ∧ maxFold acc (idxPairs n q) = (n + (j : ℤ), qAt q j)
  | [], _, _ => Or.inl rfl
  | x :: q, n, acc => by
    simp only [idxPairs, maxFold, List.foldl_cons]
    rcases maxFold_cases q (n + 1) (if x > acc.2 then ((n : ℤ), x) else acc) with h | ⟨j, hj, h⟩
    · by_cases hx : x > acc.2
      · rw [if_pos hx] at h
        refine Or.inr ⟨0, by simp, ?_⟩
        simp only [maxFold] at h
        rw [if_pos hx]
        simpa [qAt_cons_zero] using h
      · rw [if_neg hx] at h
        simp only [maxFold] at h
        rw [if_neg hx]
        exact Or.inl h
    · refine Or.inr ⟨j + 1, by simpa using Nat.succ_lt_succ hj, ?_⟩
      simp only [maxFold] at h
      by_cases hx : x > acc.2
      · rw [if_pos hx] at h ⊢
        rw [h, qAt_cons_succ]
        simp only [Prod.mk.injEq]
        exact ⟨by push_cast; ring, trivial⟩
      · rw [if_neg hx] at h ⊢
        rw [h, qAt_cons_succ]
        simp only [Prod.mk.injEq]
        exact ⟨by push_cast; ring, trivial⟩

theorem largestIdxBy_of_nonpos {α : Type} (f : α → ℚ) (l : List α)
    (h : ∀ e ∈ l, f e ≤ 0) : largestIdxBy f l = -1 := by
  rw [largestIdxBy_eq_maxFold, maxFold_of_le]
  intro x hx
  rcases List.mem_map.1 hx with ⟨e, he, rfl⟩
  exact h e he

theorem largestIdxBy_range {α : Type} (f : α → ℚ) (l : List α) :
    largestIdxBy f l = -1 ∨
      (0 ≤ largestIdxBy f l ∧ largestIdxBy f l < (l.length : ℤ)) := by
  rw [largestIdxBy_eq_maxFold]
  rcases maxFold_cases (l.map f) 0 ((-1 : ℤ), (0 : ℚ)) with h | ⟨j, hj, h⟩
  · rw [h]; exact Or.inl rfl
  · rw [h]
    refine Or.inr ⟨by positivity, ?_⟩
    simp only [List.length_map] at hj
    simpa using Int.ofNat_lt.2 hj

theorem largestIdxBy_firstmax {α : Type} (f : α → ℚ) (l : List α) (k : ℕ)
    (hk : k < l.length)
    (hmax : ∀ j, j < l.length → qAt (l.map f) j ≤ qAt (l.map f) k)
    (hfirst : ∀ j, j < k → qAt (l.map f) j < qAt (l.map f) k)
    (hpos : 0 < qAt (l.map f) k) : largestIdxBy f l = (k : ℤ) := by
  rw [largestIdxBy_eq_maxFold,
    maxFold_firstmax (l.map f) k 0 ((-1 : ℤ), (0 : ℚ)) (by simpa using hk)
      (fun j hj => hmax j (by simpa using hj)) hfirst hpos]
  simp

theorem exists_firstmax : ∀ (q : List ℚ), q ≠ [] →
    ∃ k, k < q.length ∧ (∀ j, j < q.length → qAt q j ≤ qAt q k) ∧
      (∀ j, j < k → qAt q j < qAt q k)
  | [], h => absurd rfl h
  | [x], _ => ⟨0, by simp, fun j hj => by
      have : j = 0 := by simpa using hj
      subst this
      exact le_refl _, fun j hj => absurd hj (by simp)⟩
  | x :: y :: q, _ => by
    rcases exists_firstmax (y :: q) (by simp) with ⟨k, hk, hmax, hfirst⟩
    by_cases hxk : qAt (y :: q) k ≤ x
    · refine ⟨0, by simp, ?_, fun j hj => absurd hj (by simp)⟩
      intro j hj
      match j with
      | 0 => exact le_refl _
      | j + 1 =>
        rw [qAt_cons_succ, qAt_cons_zero]
        exact le_trans (hmax j (Nat.lt_of_succ_lt_succ hj)) hxk
    · refine ⟨k + 1, Nat.succ_lt_succ hk, ?_, ?_⟩
      · intro j hj
        match j with
        | 0 => exact le_of_lt (by simpa [qAt_cons_zero, qAt_cons_succ] using not_le.1 hxk)
        | j + 1 =>
          rw [qAt_cons_succ, qAt_cons_succ]
          exact hmax j (Nat.lt_of_succ_lt_succ hj)
      · intro j hj
        match j with
        | 0 => simpa [qAt_cons_zero, qAt_cons_succ] using not_le.1 hxk
        | j + 1 =>
          rw [qAt_cons_succ, qAt_cons_succ]
          exact hfirst j (Nat.lt_of_succ_lt_succ hj)

theorem largestIdxBy_pos_spec {α : Type} (f : α → ℚ) (l : List α)
    (h : ∃ e ∈ l, 0 < f e) :
    ∃ k : ℕ, largestIdxBy f l = (k : ℤ) ∧ k < l.length ∧
      (∀ j, j < l.length → qAt (l.map f) j ≤ qAt (l.map f) k) ∧
      (∀ j, j < k → qAt (l.map f) j < qAt (l.map f) k) ∧
      0 < qAt (l.map f) k := by
  rcases h with ⟨e, he, hpos⟩
  have hne : l.map f ≠ [] := by
    intro hc
    rw [List.map_eq_nil] at hc
    subst hc
    simp at he
  rcases exists_firstmax (l.map f) hne with ⟨k, hk, hmax, hfirst⟩
  have hklen : k < l.length := by simpa using hk
  have hfk : 0 < qAt (l.map f) k := by
    rcases exists_qAt_of_mem (l.map f) (f e) (List.mem_map_of_mem f he) with ⟨j, hj, hje⟩
    calc (0 : ℚ) < f e := hpos
    _ = qAt (l.map f) j := hje.symm
    _ ≤ qAt (l.map f) k := hmax j hj
  exact ⟨k, largestIdxBy_firstmax f l k hklen (fun j hj => hmax j (by simpa using hj))
    hfirst hfk, hklen, fun j hj => hmax j (by simpa using hj), hfirst, hfk⟩

/-! ### List access and eraseIdx lemmas -/

theorem get?_some_of_lt {α : Type} : ∀ (l : List α) (j : ℕ), j < l.length →
    ∃ a, l.get? j = some a
  | [], j, h => absurd h (by simp)
  | x :: l, 0, _ => ⟨x, rfl⟩
  | x :: l, j + 1, h => get?_some_of_lt l j (Nat.lt_of_succ_lt_succ h)

theorem mem_of_get?_eq_some {α : Type} : ∀ (l : List α) (j : ℕ) (a : α),
    l.get? j = some a → a ∈ l
  | [], j, a, h => by simp [List.get?] at h
  | x :: l, 0, a, h => by
    simp only [List.get?] at h
    cases h
    exact List.mem_cons_self x l
  | x :: l, j + 1, a, h =>
    List.mem_cons_of_mem x (mem_of_get?_eq_some l j a h)

theorem sum_eraseIdx {α : Type} (f : α → ℚ) : ∀ (l : List α) (n : ℕ) (a : α),
    l.get? n = some a → sumBy f (l.eraseIdx n) = sumBy f l - f a
  | [], n, a, h => by simp [List.get?] at h
  | x :: l, 0, a, h => by
    simp only [List.get?] at h
    cases h
    simp only [List.eraseIdx, sumBy_eq_sum_map, List.map_cons, List.sum_cons]
    ring
  | x :: l, n + 1, a, h => by
    simp only [List.get?] at h
    have ih := sum_eraseIdx f l n a h
    simp only [List.eraseIdx, sumBy_eq_sum_map, List.map_cons, List.sum_cons] at ih ⊢
    rw [ih]; ring

theorem mem_of_mem_eraseIdx {α : Type} : ∀ (l : List α) (n : ℕ) (x : α),
    x ∈ l.eraseIdx n → x ∈ l
  | [], _, _, h => by simp [List.eraseIdx] at h
  | a :: l, 0, x, h => List.mem_cons_of_mem a h
  | a :: l, n + 1, x, h => by
    rcases List.mem_cons.1 h with rfl | h
    · exact List.mem_cons_self x l
    · exact List.mem_cons_of_mem a (mem_of_mem_eraseIdx l n x h)

theorem enumFrom_get? {α : Type} : ∀ (l : List α) (n j : ℕ),
    (List.enumFrom n l).get? j = (l.get? j).map (fun a => (n + j, a))
  | [], n, j => by simp [List.enumFrom]
  | x :: l, n, 0 => by simp [List.enumFrom]
  | x :: l, n, j + 1 => by
    simp only [List.enumFrom, List.get?]
    rw [enumFrom_get? l (n + 1) j]
    cases l.get? j <;> simp <;> omega

theorem get?_map_fn {α β : Type} (f : α → β) : ∀ (l : List α) (j : ℕ),
    (l.map f).get? j = (l.get? j).map f
  | [], j => by simp
  | x :: l, 0 => rfl
  | x :: l, j + 1 => get?_map_fn f l j

/-- Nonpositive-valued lists sum to a nonpositive value. -/
theorem sum_nonpos_of_forall : ∀ (q : List ℚ), (∀ x ∈ q, x ≤ 0) → q.sum ≤ 0
  | [], _ => by simp
  | x :: q, h => by
    simp only [List.sum_cons]
    have h1 := h x (List.mem_cons_self x q)
    have h2 := sum_nonpos_of_forall q (fun y hy => h y (List.mem_cons_of_mem x hy))
    linarith

/-- Nonnegative-valued lists sum to a nonnegative value. -/
theorem sum_nonneg_of_forall : ∀ (q : List ℚ), (∀ x ∈ q, 0 ≤ x) → 0 ≤ q.sum
  | [], _ => by simp
  | x :: q, h => by
    simp only [List.sum_cons]
    have h1 := h x (List.mem_cons_self x q)
    have h2 := sum_nonneg_of_forall q (fun y hy => h y (List.mem_cons_of_mem x hy))
    linarith

theorem sum_eq_zero_of_forall : ∀ (q : List ℚ), (∀ x ∈ q, x = 0) → q.sum = 0
  | [], _ => by simp
  | x :: q, h => by
    simp only [List.sum_cons, h x (List.mem_cons_self x q),
      sum_eq_zero_of_forall q (fun y hy => h y (List.mem_cons_of_mem x hy))]
    ring

/-! ### jsRound and clampPct facts -/

theorem jsRound_nonpos_iff (x : ℚ) : jsRound x ≤ 0 ↔ x < 1 / 2 := by
  unfold jsRound
  rw [← not_lt, Int.lt_iff_add_one_le, ← not_le, Int.le_floor]
  constructor
  · intro h
    by_contra hc
    exact h (by push_cast; linarith)
  · intro h hc
    push_cast at hc
    linarith

theorem one_le_clampPct (v : ℚ) : 1 ≤ clampPct v := by
  unfold clampPct
  exact le_min (le_max_right _ _) (by norm_num)

theorem clampPct_le (v : ℚ) : clampPct v ≤ 99 := min_le_right _ _

theorem parseIntRat_intCast (m : ℤ) : parseIntRat (m : ℚ) = m := by
  unfold parseIntRat
  by_cases h : (m : ℚ) < 0
  · rw [if_pos h, ← Int.cast_neg, Int.floor_intCast, neg_neg]
  · rw [if_neg h, Int.floor_intCast]

theorem clampPct_intCast (m : ℤ) (h1 : 1 ≤ m) (h99 : m ≤ 99) :
    clampPct (m : ℚ) = m := by
  unfold clampPct
  rw [parseIntRat_intCast, max_eq_left h1, min_eq_left h99]

/-! ### Behaviour of normalizePercentages -/

theorem normalize_length (L : List LangEntry) :
    (normalizePercentages L).length = L.length := by
  unfold normalizePercentages
  by_cases h0 : L.length = 0
  · simp [h0, List.length_eq_zero.1 h0]
  · rw [if_neg h0]
    by_cases ht : sumPct L = 100
    · rw [if_pos ht]
    · rw [if_neg ht]
      by_cases hl : (0 : ℤ) ≤ largestIdxBy (fun e => e.percentage) L
      · rw [if_pos hl, length_setAt]
      · rw [if_neg hl]

/-- When the total is already 100, `normalizePercentages` is the identity. -/
theorem normalize_of_total_eq (L : List LangEntry) (h : sumPct L = 100) :
    normalizePercentages L = L := by
  unfold normalizePercentages
  have h0 : ¬ L.length = 0 := by
    intro hc
    rw [List.length_eq_zero.1 hc] at h
    simp [sumPct, sumBy] at h
  rw [if_neg h0, if_pos h]

/-- When every percentage is nonpositive, the sentinel survives the reduce and
`normalizePercentages` returns the list unadjusted. -/
theorem normalize_of_nonpos (L : List LangEntry) (hne : L.length ≠ 0)
    (ht : sumPct L ≠ 100) (h : ∀ e ∈ L, e.percentage ≤ 0) :
    normalizePercentages L = L := by
  unfold normalizePercentages
  rw [if_neg hne, if_neg ht,
    largestIdxBy_of_nonpos (fun e => e.percentage) L h, if_neg (by norm_num)]

/-- Full description of the adjusting branch: when some percentage is positive
and the total is off, `normalizePercentages` adds `100 - total` to the first
entry holding the largest percentage. -/
theorem normalize_spec_pos (L : List LangEntry)
    (hpos : ∃ e ∈ L, 0 < e.percentage) (ht : sumPct L ≠ 100) :
    ∃ k : ℕ, largestIdxBy (fun e => e.percentage) L = (k : ℤ) ∧ k < L.length ∧
      (∀ j, j < L.length →
        qAt (L.map (fun e => e.percentage)) j ≤ qAt (L.map (fun e => e.percentage)) k) ∧
      (∀ j, j < k →
        qAt (L.map (fun e => e.percentage)) j < qAt (L.map (fun e => e.percentage)) k) ∧
      normalizePercentages L =
        setAt L k (fun e => { e with percentage := e.percentage + (100 - sumPct L) }) := by
  rcases largestIdxBy_pos_spec (fun e => e.percentage) L hpos with ⟨k, hk, hklen, hmax, hfirst, _⟩
  have hne : ¬ L.length = 0 := by
    rcases hpos with ⟨e, he, _⟩
    intro hc
    rw [List.length_eq_zero.1 hc] at he
    simp at he
  refine ⟨k, hk, hklen, hmax, hfirst, ?_⟩
  unfold normalizePercentages
  rw [if_neg hne, if_neg ht, hk, if_pos (by positivity), Int.toNat_ofNat]

/-- The sum after `normalizePercentages` is 100 whenever some entry is
positive. -/
theorem normalize_sum_of_pos (L : List LangEntry)
    (hpos : ∃ e ∈ L, 0 < e.percentage) : sumPct (normalizePercentages L) = 100 := by
  by_cases ht : sumPct L = 100
  · rw [normalize_of_total_eq L ht, ht]
  · rcases normalize_spec_pos L hpos ht with ⟨k, _, hklen, _, _, heq⟩
    rcases get?_some_of_lt L k hklen with ⟨a, ha⟩
    rw [heq]
    unfold sumPct
    rw [sum_setAt (fun e => e.percentage) L k _ a ha]
    ring

/-! ### Behaviour of updateLanguagePercentage -/

/-- The shared scale factor of `updateLanguagePercentage`
(`(othersTotal - diff) / othersTotal`), in closed form. -/
def updFactor (L : List LangEntry) (index : ℕ) (v : ℚ) : ℚ :=
  (sumPct (L.eraseIdx index) - (((clampPct v : ℤ) : ℚ) - pctAt L index)) /
    sumPct (L.eraseIdx index)

theorem enumFrom_length {α : Type} : ∀ (l : List α) (n : ℕ),
    (List.enumFrom n l).length = l.length
  | [], _ => rfl
  | x :: l, n => by simp [List.enumFrom, enumFrom_length l (n + 1)]

theorem updIntermediate_length (L : List LangEntry) (i : ℕ) (v : ℚ) :
    (updIntermediate L i v).length = L.length := by
  unfold updIntermediate
  rw [List.length_map, show (setAt L i _).enum = List.enumFrom 0 (setAt L i _) from rfl,
    enumFrom_length, length_setAt]

theorem updIntermediate_get?_self (L : List LangEntry) (i : ℕ) (v : ℚ) :
    (updIntermediate L i v).get? i =
      (L.get? i).map (fun e => { e with percentage := ((clampPct v : ℤ) : ℚ) }) := by
  unfold updIntermediate
  rw [get?_map_fn, show (setAt L i _).enum = List.enumFrom 0 (setAt L i _) from rfl,
    enumFrom_get?, setAt_get?_self]
  cases L.get? i <;> simp

theorem updIntermediate_get?_ne (L : List LangEntry) (i : ℕ) (v : ℚ) (j : ℕ)
    (hj : j ≠ i) :
    (updIntermediate L i v).get? j = (L.get? j).map
      (fun e => { e with
        percentage := max 1 ((jsRound (e.percentage * updFactor L i v) : ℤ) : ℚ) }) := by
  unfold updIntermediate updFactor
  rw [get?_map_fn, show (setAt L i _).enum = List.enumFrom 0 (setAt L i _) from rfl,
    enumFrom_get?, setAt_get?_ne _ _ _ _ hj]
  cases L.get? j <;> simp [hj]

theorem one_le_clampPct_cast (v : ℚ) : (1 : ℚ) ≤ ((clampPct v : ℤ) : ℚ) := by
  exact_mod_cast one_le_clampPct v

theorem clampPct_cast_le (v : ℚ) : ((clampPct v : ℤ) : ℚ) ≤ 99 := by
  exact_mod_cast clampPct_le v

theorem updIntermediate_has_pos (L : List LangEntry) (i : ℕ) (v : ℚ)
    (h : i < L.length) : ∃ e ∈ updIntermediate L i v, 0 < e.percentage := by
  rcases get?_some_of_lt L i h with ⟨a, ha⟩
  have hget := updIntermediate_get?_self L i v
  rw [ha] at hget
  refine ⟨{ a with percentage := ((clampPct v : ℤ) : ℚ) },
    mem_of_get?_eq_some _ i _ hget, ?_⟩
  have := one_le_clampPct_cast v
  simp only
  linarith

theorem updateLanguagePercentage_guard (L : List LangEntry) (i : ℤ) (v : ℚ)
    (h : L.length = 0 ∨ i < 0 ∨ (L.length : ℤ) ≤ i) :
    updateLanguagePercentage L i v = L := by
  unfold updateLanguagePercentage
  rw [if_pos h]

theorem updateLanguagePercentage_noop (L : List LangEntry) (i : ℤ) (v : ℚ)
    (h : ((clampPct v : ℤ) : ℚ) = pctAt L i.toNat) :
    updateLanguagePercentage L i v = L := by
  unfold updateLanguagePercentage
  by_cases hg : L.length = 0 ∨ i < 0 ∨ (L.length : ℤ) ≤ i
  · rw [if_pos hg]
  · rw [if_neg hg, if_pos (by rw [sub_eq_zero]; exact h)]

theorem updateLanguagePercentage_main (L : List LangEntry) (i : ℤ) (v : ℚ)
    (h0 : 0 ≤ i) (hlen : i < (L.length : ℤ))
    (hd : ((clampPct v : ℤ) : ℚ) ≠ pctAt L i.toNat) :
    updateLanguagePercentage L i v =
      normalizePercentages (updIntermediate L i.toNat v) := by
  unfold updateLanguagePercentage
  rw [if_neg (by push_neg; exact ⟨by omega, by omega, by omega⟩)]
  rw [if_neg (fun hc => hd (sub_eq_zero.1 hc))]

/-! ### The stable descending sort of formatLanguageBreakdown -/

theorem mem_insertDescByPct (x y : String × ℚ) :
    ∀ l : List (String × ℚ), y ∈ insertDescByPct x l → y = x ∨ y ∈ l
  | [] => by
    intro h
    simp only [insertDescByPct] at h
    exact Or.inl (by simpa using h)
  | z :: l => by
    intro h
    simp only [insertDescByPct] at h
    by_cases hc : x.2 ≤ z.2
    · rw [if_pos hc] at h
      rcases List.mem_cons.1 h with rfl | h
      · exact Or.inr (List.mem_cons_self y l)
      · rcases mem_insertDescByPct x y l h with h | h
        · exact Or.inl h
        · exact Or.inr (List.mem_cons_of_mem z h)
    · rw [if_neg hc] at h
      rcases List.mem_cons.1 h with rfl | h
      · exact Or.inl rfl
      · exact Or.inr h

theorem pairwise_insertDescByPct (x : String × ℚ) :
    ∀ l : List (String × ℚ), List.Pairwise (fun a b => b.2 ≤ a.2) l →
      List.Pairwise (fun a b => b.2 ≤ a.2) (insertDescByPct x l)
  | [], _ => List.pairwise_singleton _ x
  | z :: l, h => by
    rcases List.pairwise_cons.1 h with ⟨hz, hl⟩
    simp only [insertDescByPct]
    by_cases hc : x.2 ≤ z.2
    · rw [if_pos hc]
      refine List.pairwise_cons.2 ⟨?_, pairwise_insertDescByPct x l hl⟩
      intro y hy
      rcases mem_insertDescByPct x y l hy with rfl | hy
      · exact hc
      · exact hz y hy
    · rw [if_neg hc]
      refine List.pairwise_cons.2 ⟨?_, h⟩
      intro y hy
      rcases List.mem_cons.1 hy with rfl | hy
      · exact le_of_lt (not_le.1 hc)
      · exact le_trans (hz y hy) (le_of_lt (not_le.1 hc))

theorem pairwise_sortByPctDesc_aux :
    ∀ (l acc : List (String × ℚ)), List.Pairwise (fun a b => b.2 ≤ a.2) acc →
      List.Pairwise (fun a b => b.2 ≤ a.2)
        (l.foldl (fun acc x => insertDescByPct x acc) acc)
  | [], acc, h => h
  | x :: l, acc, h =>
    pairwise_sortByPctDesc_aux l (insertDescByPct x acc) (pairwise_insertDescByPct x acc h)

theorem pairwise_sortByPctDesc (l : List (String × ℚ)) :
    List.Pairwise (fun a b => b.2 ≤ a.2) (sortByPctDesc l) :=
  pairwise_sortByPctDesc_aux l [] List.Pairwise.nil

/-! ### Claim theorems -/

theorem qAt_map_pct (L : List LangEntry) (j : ℕ) (h : j < L.length) :
    qAt (L.map (fun e => e.percentage)) j = pctAt L j := by
  unfold qAt pctAt
  rw [get?_map_fn]
  rcases get?_some_of_lt L j h with ⟨a, ha⟩
  rw [ha]
  rfl

/-- Claim C5 (amended): `normalize` of an empty list is empty; a non-empty
list totalling 100 is returned unchanged; any other list holding at least one
positive percentage gets `100 - total` added to the first entry carrying the
largest percentage (first entry wins ties) and then sums to 100; but when
every percentage is nonpositive, the sentinel of the largest-entry search
survives and the list is returned unchanged, without restoring the sum. -/
theorem C5_normalize_amended :
    normalizePercentages [] = []
    ∧ (∀ L : List LangEntry, sumPct L = 100 → normalizePercentages L = L)
    ∧ (∀ L : List LangEntry, sumPct L ≠ 100 → (∃ e ∈ L, 0 < e.percentage) →
        ∃ k : ℕ, k < L.length
          ∧ (∀ j, j < L.length → pctAt L j ≤ pctAt L k)
          ∧ (∀ j, j < k → pctAt L j < pctAt L k)
          ∧ normalizePercentages L =
              setAt L k (fun e => { e with percentage := e.percentage + (100 - sumPct L) })
          ∧ sumPct (normalizePercentages L) = 100)
    ∧ (∀ L : List LangEntry, L ≠ [] → sumPct L ≠ 100 → (∀ e ∈ L, e.percentage ≤ 0) →
        normalizePercentages L = L) := by
  refine ⟨rfl, fun L h => normalize_of_total_eq L h, ?_, ?_⟩
  · intro L ht hpos
    rcases normalize_spec_pos L hpos ht with ⟨k, _, hklen, hmax, hfirst, heq⟩
    refine ⟨k, hklen, ?_, ?_, heq, normalize_sum_of_pos L hpos⟩
    · intro j hj
      rw [← qAt_map_pct L j hj, ← qAt_map_pct L k hklen]
      exact hmax j hj
    · intro j hj
      rw [← qAt_map_pct L j (lt_trans hj hklen), ← qAt_map_pct L k hklen]
      exact hfirst j hj
  · intro L hne ht h
    exact normalize_of_nonpos L (fun hc => hne (List.length_eq_zero.1 hc)) ht h

/-- Claim C8: `normalize` is idempotent on every non-empty list. -/
theorem C8_normalize_idempotent (x : List LangEntry) (hne : x ≠ []) :
    normalizePercentages (normalizePercentages x) = normalizePercentages x := by
  by_cases ht : sumPct x = 100
  · have h1 := normalize_of_total_eq x ht
    rw [h1]
    exact h1
  · by_cases hpos : ∃ e ∈ x, 0 < e.percentage
    · exact normalize_of_total_eq _ (normalize_sum_of_pos x hpos)
    · push_neg at hpos
      have h1 := normalize_of_nonpos x (fun hc => hne (List.length_eq_zero.1 hc)) ht hpos
      rw [h1]
      exact h1

/-- Claim C6 (amended): the guard branches of `removeEntry` and
`updatePercentage` return the input list unchanged; and updating an entry to
its own current percentage is the identity provided that percentage is an
integer already inside the clamp range `[1, 99]` (outside that range the
clamp changes the value, `diff ≠ 0`, and a real redistribution runs). -/
theorem C6_noop_guards_amended :
    (∀ (L : List LangEntry) (i : ℤ), L.length ≤ 1 →
      removeLanguageWithRedistribution L i = L)
    ∧ (∀ (L : List LangEntry) (i : ℤ), i < 0 ∨ (L.length : ℤ) ≤ i →
        removeLanguageWithRedistribution L i = L)
    ∧ (∀ (L : List LangEntry) (i : ℤ) (v : ℚ),
        L.length = 0 ∨ i < 0 ∨ (L.length : ℤ) ≤ i →
        updateLanguagePercentage L i v = L)
    ∧ (∀ (L : List LangEntry) (i : ℤ) (m : ℤ), 1 ≤ m → m ≤ 99 →
        pctAt L i.toNat = (m : ℚ) →
        updateLanguagePercentage L i (pctAt L i.toNat) = L) := by
  refine ⟨?_, ?_, ?_, ?_⟩
  · intro L i h
    unfold removeLanguageWithRedistribution
    rw [if_pos (Or.inl h)]
  · intro L i h
    unfold removeLanguageWithRedistribution
    rcases h with h | h
    · rw [if_pos (Or.inr (Or.inl h))]
    · rw [if_pos (Or.inr (Or.inr h))]
  · intro L i v h
    exact updateLanguagePercentage_guard L i v h
  · intro L i m h1 h99 hm
    apply updateLanguagePercentage_noop
    rw [hm, clampPct_intCast m h1 h99]

/-- Claim C10: on a single-entry list, any update whose clamped value differs
from the current percentage is undone by the final normalization pass — the
lone entry comes back at exactly 100. -/
theorem C10_single_entry_update (e : LangEntry) (v : ℚ)
    (h : ((clampPct v : ℤ) : ℚ) ≠ e.percentage) :
    updateLanguagePercentage [e] 0 v = [{ e with percentage := 100 }] := by
  have hmain := updateLanguagePercentage_main [e] 0 v (le_refl 0) (by simp)
    (by simpa [pctAt] using h)
  rw [show (0 : ℤ).toNat = 0 from rfl] at hmain
  rw [hmain]
  have hM : updIntermediate [e] 0 v = [{ e with percentage := ((clampPct v : ℤ) : ℚ) }] := by
    simp [updIntermediate, setAt, List.enum, List.enumFrom]
  rw [hM]
  have h1 := one_le_clampPct_cast v
  have h99 := clampPct_cast_le v
  have hsum : sumPct [{ e with percentage := ((clampPct v : ℤ) : ℚ) }] =
      ((clampPct v : ℤ) : ℚ) := by
    simp [sumPct, sumBy]
  have hli : largestIdxBy (fun e => e.percentage)
      [{ e with percentage := ((clampPct v : ℤ) : ℚ) }] = ((0 : ℕ) : ℤ) := by
    apply largestIdxBy_firstmax
    · simp
    · intro j hj
      have : j = 0 := by simpa using hj
      subst this
      exact le_refl _
    · intro j hj
      exact absurd hj (by simp)
    · show (0 : ℚ) < qAt [((clampPct v : ℤ) : ℚ)] 0
      rw [qAt_cons_zero]
      linarith
  unfold normalizePercentages
  rw [if_neg (by simp), if_neg (by rw [hsum]; intro hc; rw [hc] at h99; norm_num at h99),
    hli, if_pos (by norm_num), Int.toNat_ofNat]
  simp only [setAt, hsum]
  congr 1
  ring

/-- Where the target entry of `updateLanguagePercentage` can end up: at the
clamped value, or at the clamped value shifted by the final normalization
correction (when the target is the first largest entry of the rescaled
list). -/
theorem upd_target_cases (L : List LangEntry) (i : ℤ) (v : ℚ)
    (h0 : 0 ≤ i) (hlen : i < (L.length : ℤ)) :
    pctAt (updateLanguagePercentage L i v) i.toNat = ((clampPct v : ℤ) : ℚ)
    ∨ pctAt (updateLanguagePercentage L i v) i.toNat =
        ((clampPct v : ℤ) : ℚ) + (100 - sumPct (updIntermediate L i.toNat v)) := by
  have hnat : i.toNat < L.length := by omega
  by_cases hd : ((clampPct v : ℤ) : ℚ) = pctAt L i.toNat
  · left
    rw [updateLanguagePercentage_noop L i v hd]
    exact hd.symm
  · rw [updateLanguagePercentage_main L i v h0 hlen hd]
    have hMlen : i.toNat < (updIntermediate L i.toNat v).length := by
      rw [updIntermediate_length]; exact hnat
    rcases get?_some_of_lt L i.toNat hnat with ⟨a, ha⟩
    have hMget : (updIntermediate L i.toNat v).get? i.toNat =
        some { a with percentage := ((clampPct v : ℤ) : ℚ) } := by
      rw [updIntermediate_get?_self, ha]
      rfl
    by_cases hMt : sumPct (updIntermediate L i.toNat v) = 100
    · left
      rw [normalize_of_total_eq _ hMt]
      unfold pctAt
      rw [hMget]
      rfl
    · rcases normalize_spec_pos _ (updIntermediate_has_pos L i.toNat v hnat) hMt with
        ⟨k, _, hklen, _, _, heq⟩
      rw [heq]
      by_cases hk : k = i.toNat
      · right
        subst hk
        unfold pctAt
        rw [setAt_get?_self, hMget]
        rfl
      · left
        unfold pctAt
        rw [setAt_get?_ne _ _ _ _ (fun hc => hk hc.symm), hMget]
        rfl

/-- Claim C2 (amended): `updatePercentage(L, i, 500)` sets entry `i` to the
clamped value 99 and `updatePercentage(L, i, -10)` to 1; the returned entry
`i` holds exactly that value unless the final normalization pass selects
entry `i` as the largest entry of the rescaled list, in which case the
returned value is the clamped value plus the correction `100 - total` of the
rescaled list (e.g. 98 on `[50, 25, 25]` with raw value 500).  As with C1 and
C3, the nonzero non-target-total hypothesis marks the boundary of the exact
model: on two-or-more-entry lists whose non-target total is zero (e.g.
`[{A,100},{B,0}]`, target 0) the JS source computes `factor = Infinity`,
turns the other entries into NaN, and the final normalize writes
`99 + (100 - NaN) = NaN` into the target — the claim fails there outright,
while Lean's `q / 0 = 0` convention would hide that path; the hypothesis
excludes it (single-entry lists never consult the factor, so they need no
guard). -/
theorem C2_clamping_amended (L : List LangEntry) (i : ℤ)
    (hs : sumPct L = 100) (h0 : 0 ≤ i) (hlen : i < (L.length : ℤ))
    (hoT : 2 ≤ L.length → sumPct (L.eraseIdx i.toNat) ≠ 0) :
    (pctAt (updateLanguagePercentage L i 500) i.toNat = 99
      ∨ pctAt (updateLanguagePercentage L i 500) i.toNat =
          99 + (100 - sumPct (updIntermediate L i.toNat 500)))
    ∧ (pctAt (updateLanguagePercentage L i (-10)) i.toNat = 1
      ∨ pctAt (updateLanguagePercentage L i (-10)) i.toNat =
          1 + (100 - sumPct (updIntermediate L i.toNat (-10)))) := by
  have hc500 : ((clampPct 500 : ℤ) : ℚ) = 99 := by
    norm_num [clampPct, parseIntRat]
  have hcm10 : ((clampPct (-10) : ℤ) : ℚ) = 1 := by
    norm_num [clampPct, parseIntRat]
  constructor
  · have h := upd_target_cases L i 500 h0 hlen
    rw [hc500] at h
    exact h
  · have h := upd_target_cases L i (-10) h0 hlen
    rw [hcm10] at h
    exact h

/-- Claim C3 (amended): after an update that actually redistributes (clamped
value different from the current one, nonzero non-target total — the JS
source divides by the non-target total, producing NaN percentages when it is
zero), every non-target entry of the result is at least 1 *except possibly
the single entry adjusted by the final normalization pass*, which absorbs the
rounding drift `100 - total` and can be pushed to 0 or below (see the
counterexample).  The nonzero-total hypothesis records the JS divergence; the
rational model needs no case split on it. -/
theorem C3_floor_amended (L : List LangEntry) (i : ℤ) (v : ℚ)
    (h0 : 0 ≤ i) (hlen : i < (L.length : ℤ))
    (hd : ((clampPct v : ℤ) : ℚ) ≠ pctAt L i.toNat)
    (hoT : sumPct (L.eraseIdx i.toNat) ≠ 0) :
    ∀ j : ℕ, j < L.length → j ≠ i.toNat →
      (j : ℤ) ≠ largestIdxBy (fun e => e.percentage) (updIntermediate L i.toNat v) →
      1 ≤ pctAt (updateLanguagePercentage L i v) j := by
  intro j hj hji hjl
  rw [updateLanguagePercentage_main L i v h0 hlen hd]
  have hnat : i.toNat < L.length := by omega
  rcases get?_some_of_lt L j hj with ⟨a, ha⟩
  have hMget : (updIntermediate L i.toNat v).get? j = some { a with
      percentage := max 1 ((jsRound (a.percentage * updFactor L i.toNat v) : ℤ) : ℚ) } := by
    rw [updIntermediate_get?_ne L i.toNat v j hji, ha]
    rfl
  have hMj : (1 : ℚ) ≤ pctAt (updIntermediate L i.toNat v) j := by
    unfold pctAt
    rw [hMget]
    exact le_max_left _ _
  by_cases hMt : sumPct (updIntermediate L i.toNat v) = 100
  · rw [normalize_of_total_eq _ hMt]
    exact hMj
  · rcases normalize_spec_pos _ (updIntermediate_has_pos L i.toNat v hnat) hMt with
      ⟨k, hkEq, hklen, _, _, heq⟩
    rw [heq]
    have hjk : j ≠ k := by
      intro hc
      apply hjl
      rw [hkEq, hc]
    unfold pctAt
    rw [setAt_get?_ne _ _ _ _ hjk]
    exact hMj

/-! ### The sum invariant -/

theorem add_sum (L : List LangEntry) (hint : IntPct L) (hsum : sumPct L = 100)
    (e : LangEntry) (s : ℚ) :
    sumPct (addLanguageWithRedistribution L e s) = 100 := by
  by_cases h0 : L.length = 0
  · unfold addLanguageWithRedistribution
    rw [if_pos h0]
    simp [sumPct, sumBy]
  · have heq : addLanguageWithRedistribution L e s =
        normalizePercentages ((L.map (fun lang => { lang with percentage :=
          ((jsRound (lang.percentage / 100 * (100 - s)) : ℤ) : ℚ) })) ++
          [{ e with percentage := s }]) := by
      unfold addLanguageWithRedistribution
      rw [if_neg h0]
    rw [heq]
    apply normalize_sum_of_pos
    by_contra hpos
    push_neg at hpos
    have hs_le : s ≤ 0 := by
      have := hpos { e with percentage := s }
        (List.mem_append_right _ (List.mem_singleton_self _))
      simpa using this
    have hr : (100 : ℚ) ≤ 100 - s := by linarith
    have hLle : ∀ x ∈ L, x.percentage ≤ 0 := by
      intro x hx
      have hle := hpos { x with percentage :=
          ((jsRound (x.percentage / 100 * (100 - s)) : ℤ) : ℚ) }
        (List.mem_append_left _ (List.mem_map_of_mem _ hx))
      simp only at hle
      have hle' : jsRound (x.percentage / 100 * (100 - s)) ≤ 0 := by exact_mod_cast hle
      have hlt : x.percentage / 100 * (100 - s) < 1 / 2 := (jsRound_nonpos_iff _).1 hle'
      have hlt' : x.percentage * (100 - s) / 100 < 1 / 2 := by
        rw [div_mul_eq_mul_div] at hlt
        exact hlt
      have h1 : x.percentage * (100 - s) < 50 := by
        have := (div_lt_iff (by norm_num : (0 : ℚ) < 100)).1 hlt'
        linarith
      have hden := hint x hx
      have hnum : (x.percentage.num : ℚ) = x.percentage := (Rat.den_eq_one_iff _).1 hden
      have hnumle : x.percentage.num ≤ 0 := by
        by_contra hp2
        push_neg at hp2
        have hp1 : (1 : ℚ) ≤ x.percentage := by
          rw [← hnum]
          exact_mod_cast hp2
        have hcontra : (100 : ℚ) ≤ x.percentage * (100 - s) := by nlinarith
        linarith
      calc x.percentage = (x.percentage.num : ℚ) := hnum.symm
      _ ≤ 0 := by exact_mod_cast hnumle
    have hLsum : sumPct L ≤ 0 := by
      rw [sumPct_eq_sum_map]
      apply sum_nonpos_of_forall
      intro y hy
      rcases List.mem_map.1 hy with ⟨x, hx, rfl⟩
      exact hLle x hx
    linarith

theorem remove_sum (L : List LangEntry) (hint : IntPct L) (hsum : sumPct L = 100)
    (i : ℤ) (hnn : ∀ e ∈ L, 0 ≤ e.percentage)
    (hT : 0 ≤ i → i < (L.length : ℤ) → 2 ≤ L.length →
      sumPct (L.eraseIdx i.toNat) ≠ 0) :
    sumPct (removeLanguageWithRedistribution L i) = 100 := by
  by_cases hg : L.length ≤ 1 ∨ i < 0 ∨ (L.length : ℤ) ≤ i
  · unfold removeLanguageWithRedistribution
    rw [if_pos hg]
    exact hsum
  · push_neg at hg
    obtain ⟨h2, hi0, hilen⟩ := hg
    have hTT := hT hi0 hilen (by omega)
    have hnat : i.toNat < L.length := by omega
    obtain ⟨a, ha⟩ := get?_some_of_lt L i.toNat hnat
    have hpct : pctAt L i.toNat = a.percentage := by
      unfold pctAt
      rw [ha]
      rfl
    have heq : removeLanguageWithRedistribution L i =
        normalizePercentages ((L.eraseIdx i.toNat).map (fun lang => { lang with
          percentage := ((jsRound (lang.percentage +
            lang.percentage / sumPct (L.eraseIdx i.toNat) * pctAt L i.toNat) : ℤ) : ℚ) })) := by
      unfold removeLanguageWithRedistribution
      rw [if_neg (by push_neg; exact ⟨by omega, hi0, hilen⟩)]
    rw [heq]
    have hRsum : sumPct (L.eraseIdx i.toNat) = 100 - a.percentage := by
      have h := sum_eraseIdx (fun e => e.percentage) L i.toNat a ha
      unfold sumPct at hsum ⊢
      rw [h, hsum]
    have hTnn : 0 ≤ sumPct (L.eraseIdx i.toNat) := by
      unfold sumPct
      rw [sumBy_eq_sum_map]
      apply sum_nonneg_of_forall
      intro y hy
      rcases List.mem_map.1 hy with ⟨x, hx, rfl⟩
      exact hnn x (mem_of_mem_eraseIdx _ _ _ hx)
    have hTpos : 0 < sumPct (L.eraseIdx i.toNat) := lt_of_le_of_ne hTnn (Ne.symm hTT)
    have hann : 0 ≤ a.percentage := hnn a (mem_of_get?_eq_some L i.toNat a ha)
    have hT100 : sumPct (L.eraseIdx i.toNat) ≤ 100 := by
      rw [hRsum]
      linarith
    apply normalize_sum_of_pos
    by_contra hpos
    push_neg at hpos
    have hzero : ∀ x ∈ L.eraseIdx i.toNat, x.percentage = 0 := by
      intro x hx
      have hle := hpos { x with percentage := ((jsRound (x.percentage +
          x.percentage / sumPct (L.eraseIdx i.toNat) * pctAt L i.toNat) : ℤ) : ℚ) }
        (List.mem_map_of_mem _ hx)
      simp only at hle
      have hle' : jsRound (x.percentage +
          x.percentage / sumPct (L.eraseIdx i.toNat) * pctAt L i.toNat) ≤ 0 := by
        exact_mod_cast hle
      have hlt := (jsRound_nonpos_iff _).1 hle'
      rw [hpct] at hlt
      have h100 : sumPct (L.eraseIdx i.toNat) + a.percentage = 100 := by
        rw [hRsum]
        ring
      have hre : x.percentage + x.percentage / sumPct (L.eraseIdx i.toNat) * a.percentage =
          x.percentage * 100 / sumPct (L.eraseIdx i.toNat) := by
        field_simp
        linear_combination x.percentage * h100
      rw [hre] at hlt
      have hx1 : x.percentage * 100 < sumPct (L.eraseIdx i.toNat) / 2 := by
        have := (div_lt_iff hTpos).1 hlt
        linarith
      have hxnn := hnn x (mem_of_mem_eraseIdx _ _ _ hx)
      have hden := hint x (mem_of_mem_eraseIdx _ _ _ hx)
      have hnum : (x.percentage.num : ℚ) = x.percentage := (Rat.den_eq_one_iff _).1 hden
      have hnum0 : x.percentage.num = 0 := by
        have hlt1 : (x.percentage.num : ℚ) < 1 := by
          rw [hnum]
          linarith
        have hge0 : (0 : ℚ) ≤ (x.percentage.num : ℚ) := by
          rw [hnum]
          exact hxnn
        have ha1 : x.percentage.num < 1 := by exact_mod_cast hlt1
        have ha2 : 0 ≤ x.percentage.num := by exact_mod_cast hge0
        omega
      rw [← hnum, hnum0]
      norm_num
    have hTzero : sumPct (L.eraseIdx i.toNat) = 0 := by
      unfold sumPct
      rw [sumBy_eq_sum_map]
      apply sum_eq_zero_of_forall
      intro y hy
      rcases List.mem_map.1 hy with ⟨x, hx, rfl⟩
      exact hzero x hx
    exact hTT hTzero

theorem update_sum (L : List LangEntry) (hsum : sumPct L = 100) (i : ℤ) (v : ℚ)
    (hoT : 0 ≤ i → i < (L.length : ℤ) → 2 ≤ L.length →
      sumPct (L.eraseIdx i.toNat) ≠ 0) :
    sumPct (updateLanguagePercentage L i v) = 100 := by
  by_cases hg : L.length = 0 ∨ i < 0 ∨ (L.length : ℤ) ≤ i
  · rw [updateLanguagePercentage_guard L i v hg]
    exact hsum
  · push_neg at hg
    obtain ⟨hlen0, hi0, hilen⟩ := hg
    by_cases hd : ((clampPct v : ℤ) : ℚ) = pctAt L i.toNat
    · rw [updateLanguagePercentage_noop L i v hd]
      exact hsum
    · rw [updateLanguagePercentage_main L i v hi0 hilen hd]
      exact normalize_sum_of_pos _ (updIntermediate_has_pos L i.toNat v (by omega))

/-- Claim C1 (amended): for a non-empty, integer-valued list summing to 100
(the spec's entry domain), `normalize` and `addEntry` (any new entry, any
share) preserve the sum unconditionally; `removeEntry` preserves it provided
the percentages are nonnegative and, when the removal really happens, the
survivors' total is nonzero (the JS source divides by that total and yields
NaN otherwise — exhibited by the counterexample); `updatePercentage`
preserves it provided the non-target total is nonzero when the list has two
or more entries (again a JS division by zero otherwise). -/
theorem C1_sum_invariant_amended (L : List LangEntry) (hne : L ≠ [])
    (hint : IntPct L) (hsum : sumPct L = 100) :
    sumPct (normalizePercentages L) = 100
    ∧ (∀ (newLanguage : LangEntry) (s : ℚ),
        sumPct (addLanguageWithRedistribution L newLanguage s) = 100)
    ∧ (∀ i : ℤ, (∀ e ∈ L, 0 ≤ e.percentage) →
        (0 ≤ i → i < (L.length : ℤ) → 2 ≤ L.length →
          sumPct (L.eraseIdx i.toNat) ≠ 0) →
        sumPct (removeLanguageWithRedistribution L i) = 100)
    ∧ (∀ (i : ℤ) (v : ℚ),
        (0 ≤ i → i < (L.length : ℤ) → 2 ≤ L.length →
          sumPct (L.eraseIdx i.toNat) ≠ 0) →
        sumPct (updateLanguagePercentage L i v) = 100) := by
  refine ⟨?_, fun e s => add_sum L hint hsum e s,
    fun i hnn hT => remove_sum L hint hsum i hnn hT,
    fun i v hoT => update_sum L hsum i v hoT⟩
  rw [normalize_of_total_eq L hsum]
  exact hsum

/-- Percentage stored at position `j` of a formatted-entry list (0 outside
the list), mirroring `pctAt` for `FmtEntry`. -/
def fpctAt (l : List FmtEntry) (j : ℕ) : ℚ := ((l.get? j).getD ⟨"", 0, ""⟩).percentage

theorem qAt_map_fpct (l : List FmtEntry) (j : ℕ) (h : j < l.length) :
    qAt (l.map (fun e => e.percentage)) j = fpctAt l j := by
  unfold qAt fpctAt
  rw [get?_map_fn]
  rcases get?_some_of_lt l j h with ⟨a, ha⟩
  rw [ha]
  rfl

/-- Claim C9 (amended): `formatLanguageBreakdown` keeps at most 6 entries,
assigns every returned entry the lookup color of its name (or the generic
token), and builds them by stably sorting the mapping in descending
percentage order.  When the truncated total is off 100 and some truncated
percentage is positive, the *first entry holding the largest percentage* has
exactly `100 - total` added to it (every other entry untouched — the result
is `setAt` of the colored top-6 at that one index) and the result sums to
exactly 100; that correction is applied *after* sorting and can break the
descending order (see the counterexample).  When no truncated percentage is
positive, the sentinel search returns `-1`, the correction is skipped, and
the returned list (the colored top-6 unchanged) still does not sum to 100. -/
theorem C9_formatLanguageBreakdown_amended (stats : List (String × ℚ))
    (colors : List (String × String)) (hne : stats ≠ []) :
    (formatLanguageBreakdown stats colors).length ≤ 6
    ∧ (∀ e ∈ formatLanguageBreakdown stats colors,
        e.color = lookupColor colors e.name)
    ∧ List.Pairwise (fun a b => b.percentage ≤ a.percentage) (fmtColored stats colors)
    ∧ (sumBy (fun e => e.percentage) (fmtColored stats colors) = 100 →
        formatLanguageBreakdown stats colors = fmtColored stats colors)
    ∧ (sumBy (fun e => e.percentage) (fmtColored stats colors) ≠ 100 →
        (∃ e ∈ fmtColored stats colors, 0 < e.percentage) →
        ∃ k : ℕ, k < (fmtColored stats colors).length
          ∧ (∀ j, j < (fmtColored stats colors).length →
              fpctAt (fmtColored stats colors) j ≤ fpctAt (fmtColored stats colors) k)
          ∧ (∀ j, j < k →
              fpctAt (fmtColored stats colors) j < fpctAt (fmtColored stats colors) k)
          ∧ formatLanguageBreakdown stats colors = setAt (fmtColored stats colors) k
              (fun e => { e with percentage := e.percentage +
                (100 - sumBy (fun e => e.percentage) (fmtColored stats colors)) })
          ∧ sumBy (fun e => e.percentage) (formatLanguageBreakdown stats colors) = 100)
    ∧ ((∀ e ∈ fmtColored stats colors, e.percentage ≤ 0) →
        formatLanguageBreakdown stats colors = fmtColored stats colors
        ∧ sumBy (fun e => e.percentage) (formatLanguageBreakdown stats colors) ≠ 100) := by
  have hne0 : ¬ stats.length = 0 := fun hc => hne (List.length_eq_zero.1 hc)
  have hF6 : (fmtColored stats colors).length ≤ 6 := by
    unfold fmtColored
    rw [List.length_map, List.length_take]
    exact min_le_left _ _
  have hFcol : ∀ e ∈ fmtColored stats colors, e.color = lookupColor colors e.name := by
    intro e he
    unfold fmtColored at he
    rcases List.mem_map.1 he with ⟨p, _, rfl⟩
    rfl
  have hform : formatLanguageBreakdown stats colors = fmtColored stats colors ∨
      ∃ k : ℕ, k < (fmtColored stats colors).length ∧
        formatLanguageBreakdown stats colors = setAt (fmtColored stats colors) k
          (fun e => { e with percentage :=
            e.percentage + (100 - sumBy (fun e => e.percentage) (fmtColored stats colors)) }) := by
    unfold formatLanguageBreakdown
    rw [if_neg hne0]
    by_cases hc : sumBy (fun e => e.percentage) (fmtColored stats colors) ≠ 100 ∧
        0 < (fmtColored stats colors).length
    · rw [if_pos hc]
      rcases largestIdxBy_range (fun e : FmtEntry => e.percentage) (fmtColored stats colors)
        with hli | ⟨hli0, hlilen⟩
      · rw [hli, if_neg (by norm_num)]
        exact Or.inl rfl
      · rw [if_pos hli0]
        exact Or.inr ⟨(largestIdxBy (fun e : FmtEntry => e.percentage)
          (fmtColored stats colors)).toNat, by omega, rfl⟩
    · rw [if_neg hc]
      exact Or.inl rfl
  refine ⟨?_, ?_, ?_, ?_, ?_, ?_⟩
  · rcases hform with h | ⟨k, _, h⟩
    · rw [h]
      exact hF6
    · rw [h, length_setAt]
      exact hF6
  · rcases hform with h | ⟨k, _, h⟩
    · rw [h]
      exact hFcol
    · rw [h]
      intro e he
      rcases mem_setAt _ _ _ _ he with he' | ⟨a, ha, rfl⟩
      · exact hFcol e he'
      · exact hFcol a ha
  · unfold fmtColored
    rw [List.pairwise_map]
    exact List.Pairwise.sublist (List.take_sublist 6 _) (pairwise_sortByPctDesc stats)
  · intro h100
    rcases hform with h | ⟨k, _, h⟩
    · exact h
    · unfold formatLanguageBreakdown
      rw [if_neg hne0, if_neg (by push_neg; intro hc; exact absurd h100 hc)]
  · intro hT hpos
    have hlen : 0 < (fmtColored stats colors).length := by
      rcases hpos with ⟨e, he, _⟩
      exact List.length_pos.2 (fun hc => by simp [hc] at he)
    rcases largestIdxBy_pos_spec (fun e : FmtEntry => e.percentage)
      (fmtColored stats colors) hpos with ⟨k, hkEq, hklen, hmax, hfirst, _⟩
    have heq : formatLanguageBreakdown stats colors = setAt (fmtColored stats colors) k
        (fun e => { e with percentage := e.percentage +
          (100 - sumBy (fun e => e.percentage) (fmtColored stats colors)) }) := by
      unfold formatLanguageBreakdown
      rw [if_neg hne0, if_pos ⟨hT, hlen⟩, hkEq, if_pos (by positivity), Int.toNat_ofNat]
    refine ⟨k, hklen, ?_, ?_, heq, ?_⟩
    · intro j hj
      rw [← qAt_map_fpct _ j hj, ← qAt_map_fpct _ k hklen]
      exact hmax j hj
    · intro j hj
      rw [← qAt_map_fpct _ j (lt_trans hj hklen), ← qAt_map_fpct _ k hklen]
      exact hfirst j hj
    · rw [heq]
      rcases get?_some_of_lt (fmtColored stats colors) k hklen with ⟨a, ha⟩
      rw [sum_setAt (fun e => e.percentage) (fmtColored stats colors) k _ a ha]
      ring
  · intro hnp
    have hFe : formatLanguageBreakdown stats colors = fmtColored stats colors := by
      unfold formatLanguageBreakdown
      rw [if_neg hne0]
      by_cases hc : sumBy (fun e => e.percentage) (fmtColored stats colors) ≠ 100 ∧
          0 < (fmtColored stats colors).length
      · rw [if_pos hc,
          largestIdxBy_of_nonpos (fun e : FmtEntry => e.percentage) _ hnp,
          if_neg (by norm_num)]
      · rw [if_neg hc]
    have hsnp : sumBy (fun e => e.percentage) (fmtColored stats colors) ≤ 0 := by
      rw [sumBy_eq_sum_map]
      apply sum_nonpos_of_forall
      intro y hy
      rcases List.mem_map.1 hy with ⟨x, hx, rfl⟩
      exact hnp x hx
    refine ⟨hFe, ?_⟩
    rw [hFe]
    intro hc
    rw [hc] at hsnp
    norm_num at hsnp

/-! ### Concrete instances: exhibits, counterexamples and witnesses -/

/-- The 101-entry input refuting the floor claim: a zero-percentage target, a
single entry holding the whole 100, and 99 zero-percentage entries that the
floor lifts to 1 each. -/
def L3c : List LangEntry :=
  ⟨"T", 0, "t"⟩ :: ⟨"B", 100, "b"⟩ :: List.replicate 99 ⟨"Z", 0, "z"⟩

section ConcreteEvaluations

attribute [local semireducible] Rat.add Rat.sub Rat.mul Rat.inv Rat.ofScientific

set_option maxRecDepth 10000

/-- Claim C4 (code bug): `normalizePercentages` spreads the array but not the
entry objects, so its `result[largestIndex].percentage += d` writes through
the reference shared with the caller's list.  In the heap model: after
normalizing the single-entry snapshot `[#0]` over the store
`[{JavaScript, 50, blue}]`, reading the *original* snapshot reference `#0`
gives 100, not the 50 it held before the call — the spec's "never mutates a
previous snapshot" lifecycle rule is violated by the source. -/
theorem C4_mutation_exhibit :
    readPct [⟨"JavaScript", 50, "blue"⟩] 0 = 50
    ∧ (normalizeStore [0] [⟨"JavaScript", 50, "blue"⟩]).1 = [0]
    ∧ readPct (normalizeStore [0] [⟨"JavaScript", 50, "blue"⟩]).2 0 = 100 := by
  decide

/-- Claim C7: the concrete `addEntry` scenario from the spec — C enters at 5,
A and B are rescaled from 70:30 (A picks up the half-up rounding and then the
normalization correction: 70·0.95 = 66.5 → 67 → 66), and the empty-list case
returns the sole entry at 100 for every share argument. -/
theorem C7_addEntry_scenario :
    (∀ (newLanguage : LangEntry) (s : ℚ),
      addLanguageWithRedistribution [] newLanguage s =
        [{ newLanguage with percentage := 100 }])
    ∧ addLanguageWithRedistribution [⟨"A", 70, "a"⟩, ⟨"B", 30, "b"⟩] ⟨"C", 0, "c"⟩ 5 =
        [⟨"A", 66, "a"⟩, ⟨"B", 29, "b"⟩, ⟨"C", 5, "c"⟩]
    ∧ sumPct (addLanguageWithRedistribution [⟨"A", 70, "a"⟩, ⟨"B", 30, "b"⟩]
        ⟨"C", 0, "c"⟩ 5) = 100 := by
  exact ⟨fun newLanguage s => rfl, by decide, by decide⟩

/-- Counterexample to claim C1 as stated: `[{A,100}, {B,0}]` is non-empty,
integer-valued and sums to exactly 100, yet removing index 0 leaves the
survivors' total at 0 — the JS source computes `0/0 = NaN` here (spec §9
flags this as undefined) and returns a NaN list; in the exact model the same
input returns `[{B,0}]`.  Either way the result does not sum to 100. -/
theorem C1_counterexample :
    (([⟨"A", 100, "a"⟩, ⟨"B", 0, "b"⟩] : List LangEntry) ≠ [])
    ∧ IntPct [⟨"A", 100, "a"⟩, ⟨"B", 0, "b"⟩]
    ∧ sumPct [⟨"A", 100, "a"⟩, ⟨"B", 0, "b"⟩] = 100
    ∧ sumPct (removeLanguageWithRedistribution [⟨"A", 100, "a"⟩, ⟨"B", 0, "b"⟩] 0) ≠ 100 := by
  decide

/-- Counterexample to claim C2 as stated: on `[{A,50}, {B,25}, {C,25}]`
(summing to 100) an update of entry 0 to raw value 500 clamps to 99, but the
rescaled list `[99, 1, 1]` totals 101 and the final normalization pass takes
1 back from the largest entry — entry 0 itself — leaving it at 98, not 99. -/
theorem C2_counterexample :
    sumPct [⟨"A", 50, "a"⟩, ⟨"B", 25, "b"⟩, ⟨"C", 25, "c"⟩] = 100
    ∧ pctAt (updateLanguagePercentage
        [⟨"A", 50, "a"⟩, ⟨"B", 25, "b"⟩, ⟨"C", 25, "c"⟩] 0 500) 0 = 98
    ∧ pctAt (updateLanguagePercentage
        [⟨"A", 50, "a"⟩, ⟨"B", 25, "b"⟩, ⟨"C", 25, "c"⟩] 0 500) 0 ≠ 99 := by
  decide

/-- Counterexample to claim C3 as stated: on the 101-entry list `L3c`
(nonnegative, summing to 100), updating entry 0 to raw value −10 rescales
entry 1 to 99 and lifts the 99 zero entries to 1 each; the rescaled list
totals 199, and the normalization pass subtracts the 99-unit drift from the
largest entry — the *non-target* entry 1 — driving it to 0 < 1. -/
theorem C3_counterexample :
    sumPct L3c = 100
    ∧ (∀ e ∈ L3c, 0 ≤ e.percentage)
    ∧ pctAt (updateLanguagePercentage L3c 0 (-10)) 1 = 0
    ∧ pctAt (updateLanguagePercentage L3c 0 (-10)) 1 < 1 := by
  decide

/-- Counterexample to claim C5 as stated: `[{A,0}]` is non-empty and totals
0 ≠ 100, but the largest-entry search starts from a sentinel percentage of 0
and "replace only if strictly greater" never fires, so no entry is adjusted
and the result still sums to 0. -/
theorem C5_counterexample :
    normalizePercentages [⟨"A", 0, "a"⟩] = [⟨"A", 0, "a"⟩]
    ∧ sumPct (normalizePercentages [⟨"A", 0, "a"⟩]) ≠ 100 := by
  decide

/-- Counterexample to claim C6 as stated: entry 1 of `[{A,99}, {B,0}, {C,1}]`
holds 0, outside the clamp range `[1,99]`; `updatePercentage(L, 1, 0)` clamps
the current value 0 up to 1, so `diff ≠ 0` and a real redistribution runs,
returning `[98, 1, 1] ≠ L` instead of the claimed identity. -/
theorem C6_counterexample :
    pctAt [⟨"A", 99, "a"⟩, ⟨"B", 0, "b"⟩, ⟨"C", 1, "c"⟩] 1 = 0
    ∧ updateLanguagePercentage [⟨"A", 99, "a"⟩, ⟨"B", 0, "b"⟩, ⟨"C", 1, "c"⟩] 1
        (pctAt [⟨"A", 99, "a"⟩, ⟨"B", 0, "b"⟩, ⟨"C", 1, "c"⟩] 1) ≠
      [⟨"A", 99, "a"⟩, ⟨"B", 0, "b"⟩, ⟨"C", 1, "c"⟩] := by
  decide

/-- Counterexample to claim C9 as stated: six languages at 16.7 each (a real
even-byte-split repository) total 100.2; the correction subtracts 0.2 from
the *first* entry, producing `[16.5, 16.7, …]` — the returned list is not
sorted in descending order of percentage. -/
theorem C9_counterexample :
    ¬ List.Pairwise (fun a b => b.percentage ≤ a.percentage)
      (formatLanguageBreakdown [("A", 167/10), ("B", 167/10), ("C", 167/10),
        ("D", 167/10), ("E", 167/10), ("F", 167/10)] []) := by
  decide

/-- Witness for C1 on `[{A,60}, {B,40}]`: all four operations preserve the
100 total at concrete arguments. -/
theorem C1_witness :
    sumPct (normalizePercentages [⟨"A", 60, "a"⟩, ⟨"B", 40, "b"⟩]) = 100
    ∧ sumPct (addLanguageWithRedistribution [⟨"A", 60, "a"⟩, ⟨"B", 40, "b"⟩]
        ⟨"C", 0, "c"⟩ 7) = 100
    ∧ sumPct (removeLanguageWithRedistribution [⟨"A", 60, "a"⟩, ⟨"B", 40, "b"⟩] 1) = 100
    ∧ sumPct (updateLanguagePercentage [⟨"A", 60, "a"⟩, ⟨"B", 40, "b"⟩] 0 30) = 100 := by
  have h := C1_sum_invariant_amended [⟨"A", 60, "a"⟩, ⟨"B", 40, "b"⟩]
    (by decide) (by decide) (by decide)
  exact ⟨h.1, h.2.1 ⟨"C", 0, "c"⟩ 7,
    h.2.2.1 1 (by decide) (fun _ _ _ => by decide),
    h.2.2.2 0 30 (fun _ _ _ => by decide)⟩

/-- Witness for C2 on `[{A,50}, {B,25}, {C,25}]`, target 0. -/
theorem C2_witness :
    (pctAt (updateLanguagePercentage
        [⟨"A", 50, "a"⟩, ⟨"B", 25, "b"⟩, ⟨"C", 25, "c"⟩] 0 500) (0 : ℤ).toNat = 99
      ∨ pctAt (updateLanguagePercentage
          [⟨"A", 50, "a"⟩, ⟨"B", 25, "b"⟩, ⟨"C", 25, "c"⟩] 0 500) (0 : ℤ).toNat =
        99 + (100 - sumPct (updIntermediate
          [⟨"A", 50, "a"⟩, ⟨"B", 25, "b"⟩, ⟨"C", 25, "c"⟩] (0 : ℤ).toNat 500)))
    ∧ (pctAt (updateLanguagePercentage
        [⟨"A", 50, "a"⟩, ⟨"B", 25, "b"⟩, ⟨"C", 25, "c"⟩] 0 (-10)) (0 : ℤ).toNat = 1
      ∨ pctAt (updateLanguagePercentage
          [⟨"A", 50, "a"⟩, ⟨"B", 25, "b"⟩, ⟨"C", 25, "c"⟩] 0 (-10)) (0 : ℤ).toNat =
        1 + (100 - sumPct (updIntermediate
          [⟨"A", 50, "a"⟩, ⟨"B", 25, "b"⟩, ⟨"C", 25, "c"⟩] (0 : ℤ).toNat (-10)))) :=
  C2_clamping_amended [⟨"A", 50, "a"⟩, ⟨"B", 25, "b"⟩, ⟨"C", 25, "c"⟩] 0
    (by decide) (by decide) (by decide) (fun _ => by decide)

/-- Witness for C3 on `[{A,60}, {B,40}]`: the non-target entry stays ≥ 1. -/
theorem C3_witness :
    1 ≤ pctAt (updateLanguagePercentage [⟨"A", 60, "a"⟩, ⟨"B", 40, "b"⟩] 0 70) 1 :=
  C3_floor_amended [⟨"A", 60, "a"⟩, ⟨"B", 40, "b"⟩] 0 70
    (by decide) (by decide) (by decide) (by decide) 1
    (by decide) (by decide) (by decide)

/-- Witness for C5: a list already totalling 100 is returned unchanged. -/
theorem C5_witness :
    normalizePercentages [⟨"A", 60, "a"⟩, ⟨"B", 40, "b"⟩] =
      [⟨"A", 60, "a"⟩, ⟨"B", 40, "b"⟩] :=
  C5_normalize_amended.2.1 [⟨"A", 60, "a"⟩, ⟨"B", 40, "b"⟩] (by decide)

/-- Witness for C6: all four no-op guards at concrete inputs. -/
theorem C6_witness :
    removeLanguageWithRedistribution [⟨"A", 100, "a"⟩] 0 = [⟨"A", 100, "a"⟩]
    ∧ removeLanguageWithRedistribution [⟨"A", 60, "a"⟩, ⟨"B", 40, "b"⟩] (-1) =
        [⟨"A", 60, "a"⟩, ⟨"B", 40, "b"⟩]
    ∧ updateLanguagePercentage [⟨"A", 60, "a"⟩, ⟨"B", 40, "b"⟩] 5 33 =
        [⟨"A", 60, "a"⟩, ⟨"B", 40, "b"⟩]
    ∧ updateLanguagePercentage [⟨"A", 60, "a"⟩, ⟨"B", 40, "b"⟩] 0
        (pctAt [⟨"A", 60, "a"⟩, ⟨"B", 40, "b"⟩] (0 : ℤ).toNat) =
      [⟨"A", 60, "a"⟩, ⟨"B", 40, "b"⟩] :=
  ⟨C6_noop_guards_amended.1 [⟨"A", 100, "a"⟩] 0 (by decide),
    C6_noop_guards_amended.2.1 [⟨"A", 60, "a"⟩, ⟨"B", 40, "b"⟩] (-1) (Or.inl (by decide)),
    C6_noop_guards_amended.2.2.1 [⟨"A", 60, "a"⟩, ⟨"B", 40, "b"⟩] 5 33
      (Or.inr (Or.inr (by decide))),
    C6_noop_guards_amended.2.2.2 [⟨"A", 60, "a"⟩, ⟨"B", 40, "b"⟩] 0 60
      (by decide) (by decide) (by decide)⟩

/-- Witness for C8 on a singleton list. -/
theorem C8_witness :
    normalizePercentages (normalizePercentages [⟨"A", 30, "a"⟩]) =
      normalizePercentages [⟨"A", 30, "a"⟩] :=
  C8_normalize_idempotent [⟨"A", 30, "a"⟩] (by decide)

/-- Witness for C9 on `{A: 60, B: 40}` with a color known for A only: the
truncated total is already 100, so the breakdown equals the sorted, colored
top-6 list. -/
theorem C9_witness :
    (formatLanguageBreakdown [("A", 60), ("B", 40)] [("A", "red")]).length ≤ 6
    ∧ formatLanguageBreakdown [("A", 60), ("B", 40)] [("A", "red")] =
        fmtColored [("A", 60), ("B", 40)] [("A", "red")] := by
  have h := C9_formatLanguageBreakdown_amended [("A", 60), ("B", 40)] [("A", "red")]
    (by decide)
  exact ⟨h.1, h.2.2.2.1 (by decide)⟩

/-- Witness for C10: updating the lone entry of `[{A,100}]` to 50 bounces it
back to 100. -/
theorem C10_witness :
    updateLanguagePercentage [⟨"A", 100, "a"⟩] 0 50 = [⟨"A", 100, "a"⟩] :=
  C10_single_entry_update ⟨"A", 100, "a"⟩ 50 (by decide)

end ConcreteEvaluations
